import Mathlib

/-!
Verification of `client/src/utils/urlCitationParser.ts`.

The TypeScript module is shallowly embedded here:

* JavaScript runtime values are modelled by `JsValue` (numbers as `Int`;
  `NaN`, `-0` and object identity are not modelled — `Set.has` on the url
  values stored by this module is therefore modelled by structural
  equality, which agrees with JavaScript's SameValueZero on all
  primitives, and strings, the only urls the module is designed for,
  compare exactly).
* Property access `v.k` is the total function `getF` (returning
  `undefined` for missing keys and non-object receivers); the one place
  where the receiver can be `null`/`undefined` — `message.annotations`
  and `message.content` inside `extractAllUrlCitations` — is modelled
  explicitly as a thrown `TypeError`, i.e. an `Option.none` result.
* Strings are Lean `String`s viewed through their character lists
  (`String.data`); JavaScript's UTF-16 `length` coincides with the
  character count on the Basic Multilingual Plane, which covers every
  string this module manipulates.
* The regular expressions of the module are deterministic (their
  character classes exclude the closing delimiter, so greedy matching
  never backtracks), and are embedded as first-match scanners.
-/

/-- Model of a JavaScript runtime value. -/
inductive JsValue where
  | null
  | undefined
  | bool (b : Bool)
  | num (n : Int)
  | str (s : String)
  | arr (elems : List JsValue)
  | obj (fields : List (String × JsValue))

mutual

/-- Structural equality of `JsValue`s (SameValueZero on primitives). -/
def jsBeq : JsValue → JsValue → Bool
  | .null, .null => true
  | .undefined, .undefined => true
  | .bool a, .bool b => a == b
  | .num a, .num b => a == b
  | .str a, .str b => a == b
  | .arr a, .arr b => jsBeqList a b
  | .obj a, .obj b => jsBeqFields a b
  | _, _ => false

/-- Elementwise `jsBeq` on lists of values. -/
def jsBeqList : List JsValue → List JsValue → Bool
  | [], [] => true
  | x :: xs, y :: ys => jsBeq x y && jsBeqList xs ys
  | _, _ => false

/-- Elementwise `jsBeq` on field lists. -/
def jsBeqFields : List (String × JsValue) → List (String × JsValue) → Bool
  | [], [] => true
  | (k₁, v₁) :: xs, (k₂, v₂) :: ys => k₁ == k₂ && jsBeq v₁ v₂ && jsBeqFields xs ys
  | _, _ => false

end

theorem jsBeq_iff : ∀ a b : JsValue, jsBeq a b = true ↔ a = b := by
  apply jsBeq.induct
    (motive_1 := fun a b => jsBeq a b = true ↔ a = b)
    (motive_2 := fun a b => jsBeqFields a b = true ↔ a = b)
    (motive_3 := fun a b => jsBeqList a b = true ↔ a = b)
  case case1 => simp [jsBeq]
  case case2 => simp [jsBeq]
  case case3 => intro a b; simp [jsBeq]
  case case4 => intro a b; simp [jsBeq]
  case case5 => intro a b; simp [jsBeq]
  case case6 => intro a b ih; simpa [jsBeq] using ih
  case case7 => intro a b ih; simpa [jsBeq] using ih
  case case8 =>
    intro t x h1 h2 h3 h4 h5 h6 h7
    cases t <;> cases x <;> simp_all [jsBeq]
  case case9 => simp [jsBeqList]
  case case10 => intro x xs y ys ih1 ih2; simp [jsBeqList, ih1, ih2]
  case case11 =>
    intro t x h1 h2
    cases t with
    | nil =>
      cases x with
      | nil => exact (h1 rfl rfl).elim
      | cons y ys => simp [jsBeqList]
    | cons a as =>
      cases x with
      | nil => simp [jsBeqList]
      | cons y ys => exact (h2 a as y ys rfl rfl).elim
  case case12 => simp [jsBeqFields]
  case case13 => intro k₁ v₁ xs k₂ v₂ ys ih1 ih2; simp [jsBeqFields, ih1, ih2]
  case case14 =>
    intro t x h1 h2
    cases t with
    | nil =>
      cases x with
      | nil => exact (h1 rfl rfl).elim
      | cons q ys => obtain ⟨k₂, v₂⟩ := q; simp [jsBeqFields]
    | cons p xs =>
      cases x with
      | nil => obtain ⟨k₁, v₁⟩ := p; simp [jsBeqFields]
      | cons q ys =>
        obtain ⟨k₁, v₁⟩ := p
        obtain ⟨k₂, v₂⟩ := q
        exact (h2 k₁ v₁ xs k₂ v₂ ys rfl rfl).elim

instance : DecidableEq JsValue := fun a b =>
  decidable_of_iff (jsBeq a b = true) (jsBeq_iff a b)

/-- Truthiness of a JavaScript value (`NaN` is not modelled). -/
def truthy : JsValue → Bool
  | .null => false
  | .undefined => false
  | .bool b => b
  | .num n => decide (n ≠ 0)
  | .str s => decide (s ≠ "")
  | .arr _ => true
  | .obj _ => true

/-- `typeof v === 'object'` (true for objects, arrays and `null`). -/
def typeofIsObject : JsValue → Bool
  | .obj _ => true
  | .arr _ => true
  | .null => true
  | _ => false

/-- Whether the value is a string (`typeof v === 'string'`). -/
def isStr : JsValue → Bool
  | .str _ => true
  | _ => false

/-- The underlying string of a string value. -/
def strVal : JsValue → String
  | .str s => s
  | _ => ""

/-- Property access `v.k` on a receiver that is not `null`/`undefined`:
missing keys and non-object receivers give `undefined`. -/
def getF : JsValue → String → JsValue
  | .obj fs, k => (fs.lookup k).getD .undefined
  | _, _ => .undefined

/-- A citation record as built by the module; `undefined` fields model
object keys that are absent or explicitly `undefined`. -/
structure UrlCitation where
  url : JsValue
  title : JsValue
  snippet : JsValue
deriving DecidableEq

/-- The seen-set-guarded appending loop shared by the module's collectors:
`for (c of cs) if (!seenUrls.has(c.url)) { citations.push(c); seenUrls.add(c.url); }`.
Returns the pushed citations (in order) and the final seen set. -/
def dedupAppend (seen : List JsValue) : List UrlCitation → List UrlCitation × List JsValue
  | [] => ([], seen)
  | c :: cs =>
    if seen.contains c.url then dedupAppend seen cs
    else
      let r := dedupAppend (c.url :: seen) cs
      (c :: r.1, r.2)

/-- The record `{ url: v.url, title: v.title, snippet: v.snippet }`. -/
def mkCite (v : JsValue) : UrlCitation :=
  ⟨getF v "url", getF v "title", getF v "snippet"⟩

/-- Format 1 loop of `extractUrlCitations`:
`for (citation of url_citations) if (citation && citation.url && !seenUrls.has(citation.url)) { push; add }`. -/
def rule1Loop (seen : List JsValue) : List JsValue → List UrlCitation × List JsValue
  | [] => ([], seen)
  | c :: cs =>
    if truthy c && truthy (getF c "url") && !(seen.contains (getF c "url")) then
      let r := rule1Loop (getF c "url" :: seen) cs
      (mkCite c :: r.1, r.2)
    else rule1Loop seen cs

/-- Format 1 of one element: `if (Array.isArray(annotation.url_citations))`
run the inner loop, else leave the state unchanged. -/
def r1Step (seen : List JsValue) (a : JsValue) : List UrlCitation × List JsValue :=
  match getF a "url_citations" with
  | .arr cs => rule1Loop seen cs
  | _ => ([], seen)

/-- Format 2 of one element:
`if (annotation.url_citation && annotation.url_citation.url)` push the
destructured `{ url, title, snippet }` unless the url was seen. -/
def r2Step (s : List JsValue) (a : JsValue) : List UrlCitation × List JsValue :=
  if truthy (getF a "url_citation") && truthy (getF (getF a "url_citation") "url") then
    if s.contains (getF (getF a "url_citation") "url") then ([], s)
    else ([mkCite (getF a "url_citation")], getF (getF a "url_citation") "url" :: s)
  else ([], s)

/-- Format 3 of one element:
`if (annotation.url && !seenUrls.has(annotation.url))` push the direct
attributes. -/
def r3Step (s : List JsValue) (a : JsValue) : List UrlCitation × List JsValue :=
  if truthy (getF a "url") && !(s.contains (getF a "url")) then
    ([mkCite a], getF a "url" :: s)
  else ([], s)

/-- Body of the `for (annotation of annotations)` loop of
`extractUrlCitations`, threading the citations/seen state: per element the
three formats are checked in order (url_citations array, single
url_citation object, direct url field); falsy and non-object elements are
skipped (`if (!annotation || typeof annotation !== 'object') continue`). -/
def extractLoop (seen : List JsValue) : List JsValue → List UrlCitation × List JsValue
  | [] => ([], seen)
  | a :: rest =>
    if truthy a && typeofIsObject a then
      ((r1Step seen a).1 ++ (r2Step (r1Step seen a).2 a).1 ++
        (r3Step (r2Step (r1Step seen a).2 a).2 a).1 ++
        (extractLoop (r3Step (r2Step (r1Step seen a).2 a).2 a).2 rest).1,
       (extractLoop (r3Step (r2Step (r1Step seen a).2 a).2 a).2 rest).2)
    else extractLoop seen rest

/-- `extractUrlCitations(annotations)`: guarded by
`if (!annotations || !Array.isArray(annotations)) return [];`. -/
def extractUrlCitations (anns : JsValue) : List UrlCitation :=
  if truthy anns = false then []
  else
    match anns with
    | .arr l => (extractLoop [] l).1
    | _ => []

/-- The whitespace class removed by `String.prototype.trim`: ECMAScript
WhiteSpace (TAB, VT, FF, SP, NBSP, ZWNBSP, and the Unicode Zs space
separators U+1680, U+2000-U+200A, U+202F, U+205F, U+3000) together with
the LineTerminators LF, CR, LS (U+2028) and PS (U+2029). -/
def isJsWhitespace (c : Char) : Bool :=
  c = '\t' || c = '\n' || c = '\x0b' || c = '\x0c' || c = '\r' || c = ' ' ||
  c = '\u00A0' || c = '\u1680' || ('\u2000' ≤ c && c ≤ '\u200A') ||
  c = '\u2028' || c = '\u2029' || c = '\u202F' || c = '\u205F' ||
  c = '\u3000' || c = '\uFEFF'

/-- Drop trailing whitespace. -/
def dropTrail (l : List Char) : List Char :=
  (l.reverse.dropWhile isJsWhitespace).reverse

/-- `String.prototype.trim` on character lists. -/
def trimChars (l : List Char) : List Char :=
  dropTrail (l.dropWhile isJsWhitespace)

/-- `String.prototype.trim`. -/
def jsTrim (s : String) : String := ⟨trimChars s.data⟩

/-- The characters of `"\n\n**Sources**\n"`, the text the regex
`/\n\n\*\*Sources\*\*\n[\s\S]*$/` requires at the start of its match
(after which `[\s\S]*$` accepts everything to the end of the string). -/
def markerL : List Char :=
  ['\n', '\n', '*', '*', 'S', 'o', 'u', 'r', 'c', 'e', 's', '*', '*', '\n']

/-- Leftmost-match search of `content.match(/\n\n\*\*Sources\*\*\n[\s\S]*$/)`:
returns the text before the match and the matched text (which runs to the
end of the string), at the least starting index where `markerL` occurs. -/
def findSplit : List Char → Option (List Char × List Char)
  | [] => if markerL.isPrefixOf ([] : List Char) then some ([], []) else none
  | c :: t =>
    if markerL.isPrefixOf (c :: t) then some ([], c :: t)
    else (findSplit t).map fun pm => (c :: pm.1, pm.2)

/-- `splitContentAndSources(content)`:
`sources = match[0].trim()`, and
`cleanContent = content.substring(0, content.length - sources.length).trim()`. -/
def splitContentAndSources (content : String) : String × String :=
  match findSplit content.data with
  | none => (content, "")
  | some pm =>
    let sources := trimChars pm.2
    let cleanContent := trimChars (content.data.take (content.data.length - sources.length))
    (⟨cleanContent⟩, ⟨sources⟩)

/-- Split a character list at the first occurrence of `stop`:
returns the characters before it and the remainder (starting with `stop`
when found). -/
def takeUntilChar (stop : Char) : List Char → List Char × List Char
  | [] => ([], [])
  | c :: t =>
    if c = stop then ([], c :: t)
    else
      let r := takeUntilChar stop t
      (c :: r.1, r.2)

/-- One attempt of `/\[([^\]]+)\]\(([^)]+)\)/` at the head of the input:
a `[`, one or more non-`]` characters, `]`, `(`, one or more non-`)`
characters, `)`. The character classes exclude the closing delimiters, so
greedy matching is deterministic. Returns label, destination and the rest
of the input after the match. -/
def tryMatchLink : List Char → Option (String × String × List Char)
  | [] => none
  | c :: r =>
    if c = '[' then
      match (takeUntilChar ']' r).2 with
      | b :: o :: r2 =>
        if (takeUntilChar ']' r).1 ≠ [] ∧ b = ']' ∧ o = '(' then
          match (takeUntilChar ')' r2).2 with
          | z :: r4 =>
            if (takeUntilChar ')' r2).1 ≠ [] ∧ z = ')' then
              some (⟨(takeUntilChar ']' r).1⟩, ⟨(takeUntilChar ')' r2).1⟩, r4)
            else none
          | _ => none
        else none
      | _ => none
    else none

theorem takeUntilChar_snd_length (stop : Char) :
    ∀ l : List Char, (takeUntilChar stop l).2.length ≤ l.length := by
  intro l
  induction l with
  | nil => simp [takeUntilChar]
  | cons c t ih =>
    by_cases h : c = stop
    · simp [takeUntilChar, h]
    · simp [takeUntilChar, h]
      omega

theorem tryMatchLink_length {l : List Char} {t u : String} {r : List Char}
    (h : tryMatchLink l = some (t, u, r)) : r.length < l.length := by
  match l with
  | [] => exact absurd h (by simp [tryMatchLink])
  | c :: rest =>
    rw [tryMatchLink] at h
    split at h
    case isFalse => exact absurd h (by simp)
    case isTrue =>
      have h1 := takeUntilChar_snd_length ']' rest
      split at h
      case h_2 => exact absurd h (by simp)
      case h_1 b o r2 heq =>
        rw [heq] at h1
        split at h
        case isFalse => exact absurd h (by simp)
        case isTrue =>
          have h2 := takeUntilChar_snd_length ')' r2
          split at h
          case h_2 => exact absurd h (by simp)
          case h_1 z r4 heq2 =>
            rw [heq2] at h2
            split at h
            case isFalse => exact absurd h (by simp)
            case isTrue =>
              simp only [Option.some.injEq, Prod.mk.injEq] at h
              obtain ⟨-, -, h⟩ := h
              subst h
              simp only [List.length_cons] at h1 h2 ⊢
              omega

/-- The `while ((match = markdownLinkRegex.exec(content)) !== null)` loop:
repeatedly find the leftmost match from the current position, emit its
(label, destination) pair, and continue after the match. The `fuel`
argument only forces structural recursion; `l.length` is always enough
fuel because every step consumes at least one character
(`scanLinksFuel_le`/`scanLinks_cons`). -/
def scanLinksFuel : Nat → List Char → List (String × String)
  | 0, _ => []
  | _ + 1, [] => []
  | fuel + 1, c :: t =>
    match tryMatchLink (c :: t) with
    | some (ti, u, r) => (ti, u) :: scanLinksFuel fuel r
    | none => scanLinksFuel fuel t

/-- The regex-exec loop at full fuel. -/
def scanLinks (l : List Char) : List (String × String) :=
  scanLinksFuel l.length l

theorem scanLinksFuel_le :
    ∀ {f g : Nat} {l : List Char}, l.length ≤ f → l.length ≤ g →
      scanLinksFuel f l = scanLinksFuel g l := by
  intro f
  induction f with
  | zero =>
    intro g l hf hg
    match l, g with
    | [], 0 => rfl
    | [], g + 1 => rfl
    | c :: t, _ => simp at hf
  | succ n ih =>
    intro g l hf hg
    match l, g with
    | [], 0 => rfl
    | [], g + 1 => rfl
    | c :: t, 0 => simp at hg
    | c :: t, g + 1 =>
      rw [scanLinksFuel, scanLinksFuel]
      match hm : tryMatchLink (c :: t) with
      | some (ti, u, r) =>
        have hr := tryMatchLink_length hm
        simp only [List.length_cons] at hf hg hr
        show (ti, u) :: scanLinksFuel n r = (ti, u) :: scanLinksFuel g r
        exact congrArg _ (ih (by omega) (by omega))
      | none =>
        simp only [List.length_cons] at hf hg
        show scanLinksFuel n t = scanLinksFuel g t
        exact ih (by omega) (by omega)

theorem scanLinks_cons (c : Char) (t : List Char) :
    scanLinks (c :: t) =
      match tryMatchLink (c :: t) with
      | some (ti, u, r) => (ti, u) :: scanLinks r
      | none => scanLinks t := by
  rw [scanLinks, List.length_cons, scanLinksFuel]
  match hm : tryMatchLink (c :: t) with
  | some (ti, u, r) =>
    have hr := tryMatchLink_length hm
    simp only [List.length_cons] at hr
    show (ti, u) :: scanLinksFuel t.length r = (ti, u) :: scanLinks r
    rw [scanLinks]
    exact congrArg _ (scanLinksFuel_le (by omega) (le_refl r.length))
  | none =>
    show scanLinksFuel t.length t = scanLinks t
    rfl

/-- `s.startsWith(pre)` on the character level (the module only ever
tests the ASCII prefix "http"). -/
def jsStartsWith (s pre : String) : Bool :=
  pre.data.isPrefixOf s.data

/-- `parseMarkdownSources(content)`: for each regex match, push
`{ url, title: title || url }` when `url && url.startsWith('http')`. -/
def parseMarkdownSources (content : String) : List UrlCitation :=
  if content = "" then []
  else
    (scanLinks content.data).filterMap fun tu =>
      if tu.2 ≠ "" ∧ jsStartsWith tu.2 "http" then
        some ⟨.str tu.2, .str (if tu.1 = "" then tu.2 else tu.1), .undefined⟩
      else none

/-- Approach 1 of `extractAllUrlCitations`: `if (message.annotations)`
run `extractUrlCitations` and append through the seen set (initially
empty). -/
def annApproach (message : JsValue) : List UrlCitation × List JsValue :=
  if truthy (getF message "annotations") then
    dedupAppend [] (extractUrlCitations (getF message "annotations"))
  else ([], [])

/-- Approach 2 of `extractAllUrlCitations`:
`if (message.content && typeof message.content === 'string')`, split off
the sources block, and `if (sources)` append the markdown citations
through the shared seen set. -/
def mdStep (seen : List JsValue) (content : JsValue) : List UrlCitation × List JsValue :=
  if truthy content && isStr content then
    if (splitContentAndSources (strVal content)).2 ≠ "" then
      dedupAppend seen (parseMarkdownSources (splitContentAndSources (strVal content)).2)
    else ([], seen)
  else ([], seen)

/-- `extractAllUrlCitations(message)`. Reading `message.annotations` on a
`null`/`undefined` message throws a `TypeError`, modelled as `none`;
otherwise the annotation citations and then the markdown-sources
citations are appended through one shared seen set. -/
def extractAllUrlCitations (message : JsValue) : Option (List UrlCitation) :=
  if message = .null ∨ message = .undefined then none
  else
    some ((annApproach message).1 ++
      (mdStep (annApproach message).2 (getF message "content")).1)


theorem dedupAppend_append (seen : List JsValue) (a b : List UrlCitation) :
    dedupAppend seen (a ++ b) =
      ((dedupAppend seen a).1 ++ (dedupAppend (dedupAppend seen a).2 b).1,
       (dedupAppend (dedupAppend seen a).2 b).2) := by
  induction a generalizing seen with
  | nil => simp [dedupAppend]
  | cons c cs ih =>
    by_cases h : c.url ∈ seen <;> simp [dedupAppend, h, ih]

theorem dedupAppend_sublist (seen : List JsValue) (l : List UrlCitation) :
    ((dedupAppend seen l).1).Sublist l := by
  induction l generalizing seen with
  | nil => simp [dedupAppend]
  | cons c cs ih =>
    by_cases h : c.url ∈ seen
    · rw [dedupAppend, if_pos (by simpa using h)]
      exact (ih seen).cons c
    · rw [dedupAppend, if_neg (by simpa using h)]
      exact (ih _).cons₂ c

theorem dedupAppend_mem {seen : List JsValue} {l : List UrlCitation} {c : UrlCitation}
    (h : c ∈ (dedupAppend seen l).1) :
    c.url ∉ seen ∧ l.find? (fun d => d.url == c.url) = some c := by
  induction l generalizing seen with
  | nil => simp [dedupAppend] at h
  | cons d ds ih =>
    by_cases hd : d.url ∈ seen
    · rw [dedupAppend, if_pos (by simpa using hd)] at h
      obtain ⟨hns, hf⟩ := ih h
      have hb : (d.url == c.url) = false :=
        beq_eq_false_iff_ne.mpr fun he => hns (he ▸ hd)
      simp only [List.find?_cons, hb]
      exact ⟨hns, hf⟩
    · rw [dedupAppend, if_neg (by simpa using hd)] at h
      rcases List.mem_cons.mp h with he | hm
      · subst he
        refine ⟨hd, ?_⟩
        simp [List.find?_cons]
      · obtain ⟨hns, hf⟩ := ih hm
        have hb : (d.url == c.url) = false :=
          beq_eq_false_iff_ne.mpr fun he =>
            hns (he ▸ List.mem_cons_self d.url seen)
        have hns2 : c.url ∉ seen := fun hx => hns (List.mem_cons_of_mem _ hx)
        simp only [List.find?_cons, hb]
        exact ⟨hns2, hf⟩

theorem dedupAppend_nodup (seen : List JsValue) (l : List UrlCitation) :
    (((dedupAppend seen l).1).map (fun c => c.url)).Nodup := by
  induction l generalizing seen with
  | nil => simp [dedupAppend]
  | cons d ds ih =>
    by_cases hd : d.url ∈ seen
    · rw [dedupAppend, if_pos (by simpa using hd)]
      exact ih seen
    · rw [dedupAppend, if_neg (by simpa using hd)]
      simp only [List.map_cons, List.nodup_cons]
      refine ⟨?_, ih _⟩
      intro hmem
      obtain ⟨e, he, heu⟩ := List.mem_map.mp hmem
      obtain ⟨hns, -⟩ := dedupAppend_mem he
      exact hns (heu ▸ List.mem_cons_self d.url seen)

/-- The format-1 candidates of one element: the members of its
`url_citations` array that pass the `citation && citation.url` guard, in
array order. -/
def rule1Cand (a : JsValue) : List UrlCitation :=
  match getF a "url_citations" with
  | .arr cs =>
    cs.filterMap fun c =>
      if truthy c && truthy (getF c "url") then some (mkCite c) else none
  | _ => []

/-- The format-2 candidate of one element: its `url_citation` object when
it passes the `annotation.url_citation && annotation.url_citation.url`
guard. -/
def rule2Cand (a : JsValue) : List UrlCitation :=
  if truthy (getF a "url_citation") && truthy (getF (getF a "url_citation") "url") then
    [mkCite (getF a "url_citation")]
  else []

/-- The format-3 candidate of one element: its direct `url`/`title`
attributes when `annotation.url` is truthy. -/
def rule3Cand (a : JsValue) : List UrlCitation :=
  if truthy (getF a "url") then [mkCite a] else []

/-- All candidates of one element, format 1 then format 2 then format 3;
non-object and falsy elements contribute nothing. -/
def elemCand (a : JsValue) : List UrlCitation :=
  if truthy a && typeofIsObject a then rule1Cand a ++ rule2Cand a ++ rule3Cand a
  else []

/-- The full candidate stream of an annotation array, in element order. -/
def annStream (l : List JsValue) : List UrlCitation :=
  l.flatMap elemCand

theorem containsJs_iff {s : List JsValue} {v : JsValue} :
    s.contains v = true ↔ v ∈ s :=
  List.elem_iff

theorem mkCite_url (v : JsValue) : (mkCite v).url = getF v "url" := rfl

theorem rule1Loop_eq (seen : List JsValue) (cs : List JsValue) :
    rule1Loop seen cs =
      dedupAppend seen (cs.filterMap fun c =>
        if truthy c && truthy (getF c "url") then some (mkCite c) else none) := by
  induction cs generalizing seen with
  | nil => simp [rule1Loop, dedupAppend]
  | cons c cs ih =>
    by_cases h1 : truthy c && truthy (getF c "url")
    · by_cases hc : seen.contains (getF c "url") = true
      · have hm : getF c "url" ∈ seen := containsJs_iff.mp hc
        rw [rule1Loop, if_neg (by simp [h1, hm])]
        rw [List.filterMap_cons]
        simp only [h1, if_true]
        rw [dedupAppend]
        simp only [mkCite_url]
        rw [if_pos hc]
        exact ih seen
      · have hm : getF c "url" ∉ seen := fun hx => hc (containsJs_iff.mpr hx)
        rw [rule1Loop, if_pos (by simp [h1, hm])]
        rw [List.filterMap_cons]
        simp only [h1, if_true]
        rw [dedupAppend]
        simp only [mkCite_url]
        rw [if_neg hc, ih]
    · rw [rule1Loop, if_neg (by simp [h1]), List.filterMap_cons]
      simp only [h1, if_false]
      exact ih seen

theorem r1Step_eq (seen : List JsValue) (a : JsValue) :
    r1Step seen a = dedupAppend seen (rule1Cand a) := by
  rw [r1Step, rule1Cand]
  match getF a "url_citations" with
  | .arr cs => exact rule1Loop_eq seen cs
  | .null => simp [dedupAppend]
  | .undefined => simp [dedupAppend]
  | .bool b => simp [dedupAppend]
  | .num n => simp [dedupAppend]
  | .str s => simp [dedupAppend]
  | .obj fs => simp [dedupAppend]

theorem r2Step_eq (s : List JsValue) (a : JsValue) :
    r2Step s a = dedupAppend s (rule2Cand a) := by
  rw [r2Step, rule2Cand]
  by_cases h2 : truthy (getF a "url_citation") && truthy (getF (getF a "url_citation") "url")
  · rw [if_pos h2, if_pos h2]
    by_cases hc : s.contains (getF (getF a "url_citation") "url") = true
    · rw [if_pos hc, dedupAppend]
      simp only [mkCite_url]
      rw [if_pos hc]
      simp [dedupAppend]
    · rw [if_neg hc, dedupAppend]
      simp only [mkCite_url]
      rw [if_neg hc]
      simp [dedupAppend]
  · rw [if_neg h2, if_neg h2]
    rfl

theorem r3Step_eq (s : List JsValue) (a : JsValue) :
    r3Step s a = dedupAppend s (rule3Cand a) := by
  rw [r3Step, rule3Cand]
  by_cases h3 : truthy (getF a "url")
  · by_cases hc : s.contains (getF a "url") = true
    · have hm : getF a "url" ∈ s := containsJs_iff.mp hc
      rw [if_neg (by simp [h3, hm]), if_pos h3, dedupAppend]
      simp only [mkCite_url]
      rw [if_pos hc]
      simp [dedupAppend]
    · have hm : getF a "url" ∉ s := fun hx => hc (containsJs_iff.mpr hx)
      rw [if_pos (by simp [h3, hm]), if_pos h3, dedupAppend]
      simp only [mkCite_url]
      rw [if_neg hc]
      simp [dedupAppend]
  · rw [if_neg (by simp [h3]), if_neg h3]
    rfl

theorem extractLoop_eq (seen : List JsValue) (l : List JsValue) :
    extractLoop seen l = dedupAppend seen (annStream l) := by
  induction l generalizing seen with
  | nil => simp [extractLoop, annStream, dedupAppend]
  | cons a rest ih =>
    by_cases hg : truthy a && typeofIsObject a
    · rw [extractLoop, if_pos hg]
      rw [annStream, List.flatMap_cons, ← annStream]
      rw [elemCand, if_pos hg]
      rw [dedupAppend_append, dedupAppend_append, dedupAppend_append]
      rw [r1Step_eq, r2Step_eq, r3Step_eq, ih]
    · rw [extractLoop, if_neg hg]
      rw [annStream, List.flatMap_cons, ← annStream]
      rw [elemCand, if_neg hg]
      simp only [List.nil_append]
      exact ih seen

theorem extractUrlCitations_arr (l : List JsValue) :
    extractUrlCitations (.arr l) = (dedupAppend [] (annStream l)).1 := by
  have h := congrArg Prod.fst (extractLoop_eq [] l)
  simpa [extractUrlCitations, truthy] using h

/-- The annotation-derived citations of a message: what approach 1 of
`extractAllUrlCitations` feeds into the shared seen set. -/
def annCand (msg : JsValue) : List UrlCitation :=
  if truthy (getF msg "annotations") then extractUrlCitations (getF msg "annotations")
  else []

/-- The markdown-derived citations of a message: what approach 2 of
`extractAllUrlCitations` feeds into the shared seen set. -/
def mdCand (msg : JsValue) : List UrlCitation :=
  if truthy (getF msg "content") && isStr (getF msg "content") then
    if (splitContentAndSources (strVal (getF msg "content"))).2 ≠ "" then
      parseMarkdownSources (splitContentAndSources (strVal (getF msg "content"))).2
    else []
  else []

theorem extractAll_eq {msg : JsValue} (h1 : msg ≠ .null) (h2 : msg ≠ .undefined) :
    extractAllUrlCitations msg = some ((dedupAppend [] (annCand msg ++ mdCand msg)).1) := by
  rw [extractAllUrlCitations, if_neg (by simp [h1, h2])]
  rw [dedupAppend_append]
  have hann : annApproach msg = dedupAppend [] (annCand msg) := by
    rw [annApproach, annCand]
    by_cases ha : truthy (getF msg "annotations")
    · rw [if_pos ha, if_pos ha]
    · rw [if_neg ha, if_neg ha, dedupAppend]
  have hmd : ∀ s : List JsValue,
      mdStep s (getF msg "content") = dedupAppend s (mdCand msg) := by
    intro s
    rw [mdStep, mdCand]
    by_cases hc : truthy (getF msg "content") && isStr (getF msg "content")
    · rw [if_pos hc, if_pos hc]
      by_cases hs : (splitContentAndSources (strVal (getF msg "content"))).2 ≠ ""
      · rw [if_pos hs, if_pos hs]
      · rw [if_neg hs, if_neg hs, dedupAppend]
    · rw [if_neg hc, if_neg hc, dedupAppend]
  rw [hann, hmd]

/-- A call `splitContentAndSources(v)` on an arbitrary runtime value:
`v.match(...)` throws a `TypeError` unless `v` is a string (modelled as
`none`). -/
def splitContentAndSourcesJs (v : JsValue) : Option (String × String) :=
  match v with
  | .str s => some (splitContentAndSources s)
  | _ => none

/-- Whether a character list is nonempty and ends in a non-whitespace
character. -/
def endsNonWS (l : List Char) : Bool :=
  match l.reverse with
  | [] => false
  | c :: _ => !(isJsWhitespace c)

theorem dropWhile_append_left {p : Char → Bool} {a : List Char} (b : List Char)
    (h : a.dropWhile p ≠ []) : (a ++ b).dropWhile p = a.dropWhile p ++ b := by
  rw [List.dropWhile_append]
  rw [if_neg (by simpa using h)]

theorem dropWhile_append_ws {p : Char → Bool} {a : List Char} (b : List Char)
    (h : ∀ c ∈ a, p c = true) : (a ++ b).dropWhile p = b.dropWhile p := by
  rw [List.dropWhile_append]
  rw [if_pos]
  rw [List.isEmpty_iff, List.dropWhile_eq_nil_iff]
  exact h

theorem dropTrail_append_ws {a w : List Char} (h : ∀ c ∈ w, isJsWhitespace c = true) :
    dropTrail (a ++ w) = dropTrail a := by
  rw [dropTrail, dropTrail, List.reverse_append]
  rw [dropWhile_append_ws a.reverse (fun c hc => h c (List.mem_reverse.mp hc))]

theorem dropTrail_head {a : List Char} (h : endsNonWS a = true) :
    a.reverse.dropWhile isJsWhitespace = a.reverse := by
  rw [endsNonWS] at h
  match hr : a.reverse with
  | [] => simp
  | c :: t =>
    rw [hr] at h
    simp only [Bool.not_eq_true'] at h
    rw [List.dropWhile_cons, h]
    simp

theorem endsNonWS_reverse_ne_nil {a : List Char} (h : endsNonWS a = true) :
    a.reverse ≠ [] := by
  intro hh
  rw [endsNonWS, hh] at h
  simp at h

theorem dropTrail_of_endsNonWS {a : List Char} (h : endsNonWS a = true) :
    dropTrail a = a := by
  rw [dropTrail, dropTrail_head h, List.reverse_reverse]

theorem dropTrail_append_of_endsNonWS {a : List Char} (b : List Char)
    (h : endsNonWS a = true) : dropTrail (b ++ a) = b ++ dropTrail a := by
  have hne : a.reverse.dropWhile isJsWhitespace ≠ [] := by
    rw [dropTrail_head h]
    exact endsNonWS_reverse_ne_nil h
  rw [dropTrail_of_endsNonWS h, dropTrail, List.reverse_append,
      dropWhile_append_left _ hne, dropTrail_head h, List.reverse_append,
      List.reverse_reverse, List.reverse_reverse]

theorem trimChars_append_ws {a w : List Char} (h : ∀ c ∈ w, isJsWhitespace c = true) :
    trimChars (a ++ w) = trimChars a := by
  rw [trimChars, trimChars]
  by_cases ha : a.dropWhile isJsWhitespace = []
  · rw [dropWhile_append_ws w (List.dropWhile_eq_nil_iff.mp ha), ha,
        List.dropWhile_eq_nil_iff.mpr h]
  · rw [dropWhile_append_left w ha]
    exact dropTrail_append_ws h

theorem findSplit_sound {l : List Char} :
    ∀ {p m : List Char}, findSplit l = some (p, m) →
      l = p ++ m ∧ markerL.isPrefixOf m = true := by
  induction l with
  | nil =>
    intro p m h
    rw [findSplit, if_neg (by decide)] at h
    cases h
  | cons c t ih =>
    intro p m h
    rw [findSplit] at h
    by_cases hp : markerL.isPrefixOf (c :: t) = true
    · rw [if_pos hp] at h
      simp only [Option.some.injEq, Prod.mk.injEq] at h
      obtain ⟨h1, h2⟩ := h
      subst h1
      subst h2
      exact ⟨rfl, hp⟩
    · rw [if_neg hp] at h
      match hf : findSplit t with
      | none => rw [hf] at h; cases h
      | some (p0, m0) =>
        rw [hf] at h
        simp only [Option.map_some', Option.some.injEq, Prod.mk.injEq] at h
        obtain ⟨h1, h2⟩ := h
        subst h1
        subst h2
        obtain ⟨hl, hm⟩ := ih hf
        exact ⟨by rw [hl, List.cons_append], hm⟩

theorem findSplit_least {l : List Char} :
    ∀ {p m : List Char}, findSplit l = some (p, m) →
      ∀ i, markerL.isPrefixOf (l.drop i) = true → p.length ≤ i := by
  induction l with
  | nil =>
    intro p m h
    rw [findSplit, if_neg (by decide)] at h
    cases h
  | cons c t ih =>
    intro p m h i hi
    rw [findSplit] at h
    by_cases hp : markerL.isPrefixOf (c :: t) = true
    · rw [if_pos hp] at h
      simp only [Option.some.injEq, Prod.mk.injEq] at h
      obtain ⟨h1, -⟩ := h
      subst h1
      simp
    · rw [if_neg hp] at h
      match hf : findSplit t with
      | none => rw [hf] at h; cases h
      | some (p0, m0) =>
        rw [hf] at h
        simp only [Option.map_some', Option.some.injEq, Prod.mk.injEq] at h
        obtain ⟨h1, -⟩ := h
        subst h1
        match i with
        | 0 => exact absurd (by simpa using hi) hp
        | i + 1 =>
          simp only [List.length_cons, Nat.add_le_add_iff_right]
          exact ih hf i (by simpa using hi)

theorem findSplit_none {s : String} (h : findSplit s.data = none) :
    splitContentAndSources s = (s, "") := by
  rw [splitContentAndSources, h]

theorem split_some {s : String} {p m : List Char} (h : findSplit s.data = some (p, m)) :
    (splitContentAndSources s).2 = ⟨trimChars m⟩ ∧
    (splitContentAndSources s).1 =
      ⟨trimChars (s.data.take (s.data.length - (trimChars m).length))⟩ := by
  rw [splitContentAndSources, h]
  exact ⟨rfl, rfl⟩

theorem dropLead_marker (rest : List Char) :
    (markerL ++ rest).dropWhile isJsWhitespace = markerL.drop 2 ++ rest := by
  have h1 : isJsWhitespace '\n' = true := by decide
  have h2 : isJsWhitespace '*' = false := by decide
  simp [markerL, List.dropWhile_cons, h1, h2]

theorem dropTrail_append_keep {x : List Char} (y : List Char) (hx : endsNonWS x = true) :
    dropTrail (x ++ y) = x ++ dropTrail y := by
  by_cases hy : y.reverse.dropWhile isJsWhitespace = []
  · have hyw : ∀ c ∈ y, isJsWhitespace c = true := by
      intro c hc
      exact List.dropWhile_eq_nil_iff.mp hy c (List.mem_reverse.mpr hc)
    rw [dropTrail_append_ws hyw, dropTrail_of_endsNonWS hx, dropTrail, hy]
    simp
  · rw [dropTrail, List.reverse_append, dropWhile_append_left _ hy,
        List.reverse_append, List.reverse_reverse, dropTrail]

theorem endsNonWS_append {x rest : List Char} (h : rest ≠ []) :
    endsNonWS (x ++ rest) = endsNonWS rest := by
  rw [endsNonWS, endsNonWS, List.reverse_append]
  match hr : rest.reverse with
  | [] => exact absurd (by simpa using hr) h
  | c :: t => simp

theorem trimChars_marker (rest : List Char) :
    trimChars (markerL ++ rest) =
      "**Sources**".data ++ dropTrail ('\n' :: rest) := by
  rw [trimChars, dropLead_marker]
  have hd : markerL.drop 2 ++ rest = "**Sources**".data ++ ('\n' :: rest) := by
    have : markerL.drop 2 = "**Sources**".data ++ ['\n'] := by decide
    rw [this, List.append_assoc]
    rfl
  rw [hd]
  exact dropTrail_append_keep _ (by decide)

theorem trimChars_marker_len {rest : List Char} (h : endsNonWS (markerL ++ rest) = true) :
    (trimChars (markerL ++ rest)).length = (markerL ++ rest).length - 2 := by
  rw [trimChars, dropLead_marker]
  have hr : rest ≠ [] := by
    intro hcon
    subst hcon
    simp only [List.append_nil] at h
    rw [endsNonWS] at h
    revert h
    decide
  have hm : endsNonWS (markerL.drop 2 ++ rest) = true := by
    rw [endsNonWS_append hr]
    rw [endsNonWS_append hr] at h
    exact h
  rw [dropTrail_of_endsNonWS hm]
  simp [markerL]

theorem tryMatchLink_nonempty {l : List Char} {t u : String} {r : List Char}
    (h : tryMatchLink l = some (t, u, r)) : t.data ≠ [] ∧ u.data ≠ [] := by
  match l with
  | [] => exact absurd h (by simp [tryMatchLink])
  | c :: rest =>
    rw [tryMatchLink] at h
    split at h
    case isFalse => exact absurd h (by simp)
    case isTrue =>
      split at h
      case h_2 => exact absurd h (by simp)
      case h_1 b o r2 heq =>
        split at h
        case isFalse => exact absurd h (by simp)
        case isTrue hg1 =>
          split at h
          case h_2 => exact absurd h (by simp)
          case h_1 z r4 heq2 =>
            split at h
            case isFalse => exact absurd h (by simp)
            case isTrue hg2 =>
              simp only [Option.some.injEq, Prod.mk.injEq] at h
              obtain ⟨ht, hu, -⟩ := h
              subst ht
              subst hu
              exact ⟨hg1.1, hg2.1⟩

theorem scanLinksFuel_mem {t u : String} :
    ∀ {fuel : Nat} {l : List Char},
      (t, u) ∈ scanLinksFuel fuel l → t.data ≠ [] ∧ u.data ≠ [] := by
  intro fuel
  induction fuel with
  | zero => intro l h; cases h
  | succ n ih =>
    intro l h
    match l with
    | [] => cases h
    | c :: tl =>
      rw [scanLinksFuel] at h
      match hm : tryMatchLink (c :: tl) with
      | some (ti, u0, r) =>
        rw [hm] at h
        rcases List.mem_cons.mp h with he | hr
        · cases he
          exact tryMatchLink_nonempty hm
        · exact ih hr
      | none =>
        rw [hm] at h
        exact ih h

theorem scanLinks_mem {t u : String} {l : List Char}
    (h : (t, u) ∈ scanLinks l) : t.data ≠ [] ∧ u.data ≠ [] :=
  scanLinksFuel_mem h

theorem str_ne_empty_iff {u : String} : u ≠ "" ↔ u.data ≠ [] := by
  constructor
  · intro h hc
    exact h (String.ext hc)
  · intro h hc
    subst hc
    exact h rfl

theorem parseMarkdownSources_mem {s : String} {c : UrlCitation} :
    c ∈ parseMarkdownSources s ↔
      ∃ t u : String, (t, u) ∈ scanLinks s.data ∧ u ≠ "" ∧ jsStartsWith u "http" = true ∧
        c = ⟨.str u, .str (if t = "" then u else t), .undefined⟩ := by
  rw [parseMarkdownSources]
  by_cases hs : s = ""
  · subst hs
    rw [if_pos rfl]
    constructor
    · intro h
      cases h
    · rintro ⟨t, u, hmem, -⟩
      rw [show ("" : String).data = [] from rfl] at hmem
      cases hmem
  · rw [if_neg hs, List.mem_filterMap]
    constructor
    · rintro ⟨⟨t, u⟩, hmem, hf⟩
      split at hf
      · next hg =>
          simp only [Option.some.injEq] at hf
          exact ⟨t, u, hmem, hg.1, hg.2, hf.symm⟩
      · next => cases hf
    · rintro ⟨t, u, hmem, hu, hhttp, rfl⟩
      refine ⟨(t, u), hmem, ?_⟩
      rw [if_pos ⟨hu, hhttp⟩]

theorem split_sources_formula {s : String} {p rest : List Char}
    (h : findSplit s.data = some (p, markerL ++ rest)) :
    (splitContentAndSources s).2 = ⟨"**Sources**".data ++ dropTrail ('\n' :: rest)⟩ := by
  rw [(split_some h).1, trimChars_marker]

theorem split_content_formula {s : String} {p rest : List Char}
    (h : findSplit s.data = some (p, markerL ++ rest))
    (hw : endsNonWS s.data = true) :
    (splitContentAndSources s).1 = ⟨trimChars p⟩ := by
  have hsplit := (split_some h).2
  have hsm := (findSplit_sound h).1
  have hmne : markerL ++ rest ≠ [] := by simp [markerL]
  have hm : endsNonWS (markerL ++ rest) = true := by
    rw [hsm, endsNonWS_append hmne] at hw
    exact hw
  rw [hsplit, trimChars_marker_len hm, hsm, List.length_append]
  have hml : (markerL ++ rest).length = 14 + rest.length := by
    simp [markerL]
    omega
  rw [hml]
  have harith : p.length + (14 + rest.length) - (14 + rest.length - 2) = p.length + 2 := by
    omega
  rw [harith, List.take_append]
  have ht2 : (markerL ++ rest).take 2 = ['\n', '\n'] := by
    rw [List.take_append_of_le_length (by simp [markerL])]
    decide
  rw [ht2, trimChars_append_ws (by decide)]

theorem dropWhile_head_false {p : Char → Bool} :
    ∀ {l : List Char} {c : Char} {t : List Char},
      l.dropWhile p = c :: t → p c = false := by
  intro l
  induction l with
  | nil => intro c t h; simp at h
  | cons a as ih =>
    intro c t h
    rw [List.dropWhile_cons] at h
    split at h
    · exact ih h
    · next hp =>
        cases h
        exact Bool.not_eq_true _ ▸ (by simpa using hp)

theorem dropTrail_cases (y : List Char) :
    dropTrail y = [] ∨ endsNonWS (dropTrail y) = true := by
  rw [dropTrail]
  match hd : y.reverse.dropWhile isJsWhitespace with
  | [] => left; simp
  | c :: t =>
    right
    simp [endsNonWS, dropWhile_head_false hd]

theorem trimChars_of_endsNonWS {p : List Char} (h : endsNonWS p = true) :
    trimChars p = p.dropWhile isJsWhitespace := by
  rw [trimChars]
  have ht : p.dropWhile isJsWhitespace ≠ [] := by
    intro hc
    have hall := List.dropWhile_eq_nil_iff.mp hc
    rw [endsNonWS] at h
    match hr : p.reverse with
    | [] => rw [hr] at h; simp at h
    | c :: t =>
      rw [hr] at h
      simp only [Bool.not_eq_true'] at h
      have hcp : c ∈ p := by
        have : c ∈ p.reverse := by rw [hr]; exact List.mem_cons_self ..
        exact List.mem_reverse.mp this
      rw [hall c hcp] at h
      cases h
  apply dropTrail_of_endsNonWS
  have he := endsNonWS_append (x := p.takeWhile isJsWhitespace) ht
  rw [List.takeWhile_append_dropWhile] at he
  rw [← he]
  exact h

theorem dropLead_ne_nil_of_endsNonWS {p : List Char} (h : endsNonWS p = true) :
    p.dropWhile isJsWhitespace ≠ [] := by
  intro hc
  have hall := List.dropWhile_eq_nil_iff.mp hc
  rw [endsNonWS] at h
  match hr : p.reverse with
  | [] => rw [hr] at h; simp at h
  | c :: t =>
    rw [hr] at h
    simp only [Bool.not_eq_true'] at h
    have hcp : c ∈ p := by
      have : c ∈ p.reverse := by rw [hr]; exact List.mem_cons_self ..
      exact List.mem_reverse.mp this
    rw [hall c hcp] at h
    cases h

theorem split_concat_formula {s : String} {p rest : List Char}
    (h : findSplit s.data = some (p, markerL ++ rest))
    (hp : endsNonWS p = true) (hw : endsNonWS s.data = true) :
    (splitContentAndSources s).1 ++ "\n\n" ++ (splitContentAndSources s).2 = jsTrim s := by
  have hsm := (findSplit_sound h).1
  have hmne : markerL ++ rest ≠ [] := by simp [markerL]
  have hm : endsNonWS (markerL ++ rest) = true := by
    rw [hsm, endsNonWS_append hmne] at hw
    exact hw
  have hrne : rest ≠ [] := by
    intro hc
    subst hc
    rw [List.append_nil] at hm
    revert hm
    decide
  have hrw : endsNonWS rest = true := by
    rw [endsNonWS_append hrne] at hm
    exact hm
  have hnl : endsNonWS ('\n' :: rest) = true := by
    rw [show ('\n' :: rest) = ['\n'] ++ rest from rfl, endsNonWS_append hrne]
    exact hrw
  have hw2 : endsNonWS s.data = true := by
    rw [hsm, endsNonWS_append hmne]
    exact hm
  rw [split_content_formula h hw2, split_sources_formula h]
  apply String.ext
  simp only [String.data_append]
  rw [dropTrail_of_endsNonWS hnl, trimChars_of_endsNonWS hp]
  show _ = trimChars s.data
  rw [hsm, trimChars,
      dropWhile_append_left _ (dropLead_ne_nil_of_endsNonWS hp),
      dropTrail_append_of_endsNonWS _ hm, dropTrail_of_endsNonWS hm]
  rw [show markerL = "\n\n".data ++ "**Sources**".data ++ ['\n'] from by decide]
  simp

/-- C1: the claim says `extractAllUrlCitations` never throws — including on a
`null`/`undefined` message — and returns the empty sequence when the message
is absent. The code instead reads `message.annotations` on the absent
message, which throws a `TypeError` at runtime (the repository's own test
"should handle null message gracefully" expects `[]`). Evaluating the
embedded code at the failing inputs yields the thrown-exception value
`none`, not `some []`. -/
theorem claim_C1_absent_message_throws :
    extractAllUrlCitations JsValue.null = none ∧
    extractAllUrlCitations JsValue.undefined = none :=
  ⟨rfl, rfl⟩

/-- C2: whenever `extractAllUrlCitations` returns a sequence, its `url`
values are pairwise distinct (exact equality), the sequence is an
order-preserving subsequence of the combined candidate stream (all
annotation-derived citations in order, then all markdown-derived citations
in order), and every emitted citation is exactly the first record of the
combined stream bearing its url — so title and snippet come from the first
occurrence and later duplicates are discarded whole, never merged. -/
theorem claim_C2_url_dedup_first_wins (msg : JsValue) (out : List UrlCitation)
    (h : extractAllUrlCitations msg = some out) :
    ((out.map fun c => c.url).Nodup) ∧
    out.Sublist (annCand msg ++ mdCand msg) ∧
    ∀ c ∈ out, (annCand msg ++ mdCand msg).find? (fun d => d.url == c.url) = some c := by
  have h1 : msg ≠ .null := by
    rintro rfl
    rw [extractAllUrlCitations, if_pos (Or.inl rfl)] at h
    cases h
  have h2 : msg ≠ .undefined := by
    rintro rfl
    rw [extractAllUrlCitations, if_pos (Or.inr rfl)] at h
    cases h
  rw [extractAll_eq h1 h2] at h
  injection h with h
  subst h
  exact ⟨dedupAppend_nodup _ _, dedupAppend_sublist _ _, fun c hc => (dedupAppend_mem hc).2⟩

/-- A message carrying the same url in two annotation formats and in the
markdown sources block, used to instantiate C2. -/
def msgW : JsValue := .obj [
  ("annotations", .arr [
    .obj [("url_citations", .arr [
      .obj [("url", .str "https://example.com"), ("title", .str "Example 1")]])],
    .obj [("url", .str "https://example.com"), ("title", .str "Example 2")]]),
  ("content", .str "Answer\n\n**Sources**\n- [Example](https://example.com)")]

/-- The single citation the code returns for `msgW`. -/
def outW : List UrlCitation := [⟨.str "https://example.com", .str "Example 1", .undefined⟩]

/-- C2 witness: the dedup/first-wins theorem applied to `msgW`. -/
theorem claim_C2_witness :
    extractAllUrlCitations msgW = some outW ∧
    (((outW.map fun c => c.url).Nodup) ∧
     outW.Sublist (annCand msgW ++ mdCand msgW) ∧
     ∀ c ∈ outW, (annCand msgW ++ mdCand msgW).find? (fun d => d.url == c.url) = some c) :=
  ⟨by decide, claim_C2_url_dedup_first_wins msgW outW (by decide)⟩

/-- C3 counterexample: the claim says `splitContentAndSources` splits at the
LAST blank-line-separated `**Sources**` block and that `content` is
everything before it, trimmed. On an input with two marker occurrences and
a trailing newline, the code matches the FIRST occurrence, and the trimmed
sources length makes `substring` keep one character of the marker: the
result is neither the last-block `sources` (`"**Sources**\ny"`) nor the
trimmed preceding text (`"Hello \n\n**Sources**\nx"`). -/
theorem claim_C3_counterexample :
    splitContentAndSources "Hello \n\n**Sources**\nx\n\n**Sources**\ny\n" =
      ("Hello \n\n*", "**Sources**\nx\n\n**Sources**\ny") ∧
    ("**Sources**\nx\n\n**Sources**\ny" : String) ≠ "**Sources**\ny" ∧
    ("Hello \n\n*" : String) ≠ "Hello \n\n**Sources**\nx" :=
  ⟨by decide, by decide, by decide⟩

/-- C3 (amended): `splitContentAndSources` splits at the FIRST occurrence of
the blank-line-separated `**Sources**` marker (`findSplit` returns the
leftmost match, as the minimality conjunct states): `sources` is that
trailing block trimmed, and — provided the input carries no trailing
whitespace — `content` is everything before the marker, trimmed. -/
theorem claim_C3_first_marker_split (s : String) (p m : List Char)
    (h : findSplit s.data = some (p, m)) :
    s.data = p ++ m ∧
    markerL.isPrefixOf m = true ∧
    (∀ i, markerL.isPrefixOf (s.data.drop i) = true → p.length ≤ i) ∧
    (splitContentAndSources s).2 = jsTrim ⟨m⟩ ∧
    (endsNonWS s.data = true → (splitContentAndSources s).1 = jsTrim ⟨p⟩) := by
  obtain ⟨hsm, hpre⟩ := findSplit_sound h
  refine ⟨hsm, hpre, findSplit_least h, ?_, ?_⟩
  · rw [(split_some h).1]
    rfl
  · intro hw
    obtain ⟨rest, hrest⟩ := List.isPrefixOf_iff_prefix.mp hpre
    have h2 : findSplit s.data = some (p, markerL ++ rest) := by rw [hrest]; exact h
    rw [split_content_formula h2 hw]
    rfl

/-- C3 witness: the first-marker split theorem at a concrete input with no
trailing whitespace. -/
theorem claim_C3_witness :
    findSplit ("Hello\n\n**Sources**\n[a](http://a)" : String).data =
      some ("Hello".data, "\n\n**Sources**\n[a](http://a)".data) ∧
    endsNonWS ("Hello\n\n**Sources**\n[a](http://a)" : String).data = true ∧
    (splitContentAndSources "Hello\n\n**Sources**\n[a](http://a)").2 =
      jsTrim ⟨"\n\n**Sources**\n[a](http://a)".data⟩ ∧
    (splitContentAndSources "Hello\n\n**Sources**\n[a](http://a)").1 =
      jsTrim ⟨"Hello".data⟩ :=
  ⟨by decide, by decide,
   (claim_C3_first_marker_split "Hello\n\n**Sources**\n[a](http://a)" "Hello".data
      "\n\n**Sources**\n[a](http://a)".data (by decide)).2.2.2.1,
   (claim_C3_first_marker_split "Hello\n\n**Sources**\n[a](http://a)" "Hello".data
      "\n\n**Sources**\n[a](http://a)".data (by decide)).2.2.2.2 (by decide)⟩

/-- C4 counterexample: the claim says a markdown link with an empty
bracketed label, such as `[](https://x.com)`, yields a citation whose
title is the destination. The regex label group `[^\]]+` requires at least
one character, so the link does not match at all and no citation is
emitted. -/
theorem claim_C4_counterexample :
    parseMarkdownSources "[](https://x.com)" = [] ∧
    (⟨JsValue.str "https://x.com", JsValue.str "https://x.com", JsValue.undefined⟩ : UrlCitation)
      ∉ parseMarkdownSources "[](https://x.com)" :=
  ⟨by decide, by decide⟩

/-- C4 (amended): an empty bracketed label never matches the link regex, so
no citation is emitted for `[](https://x.com)`; every citation
`parseMarkdownSources` does emit comes from a match with a nonempty label,
whose title is exactly that label (the `title || url` fallback to the
destination is unreachable). -/
theorem claim_C4_empty_label_never_matches :
    parseMarkdownSources "[](https://x.com)" = [] ∧
    (∀ (s : String) (c : UrlCitation), c ∈ parseMarkdownSources s →
      ∃ t u : String, (t, u) ∈ scanLinks s.data ∧ t ≠ "" ∧
        c.title = JsValue.str t ∧ c.url = JsValue.str u) := by
  refine ⟨by decide, ?_⟩
  intro s c hc
  obtain ⟨t, u, hmem, hu, hhttp, rfl⟩ := parseMarkdownSources_mem.mp hc
  have ht : t ≠ "" := str_ne_empty_iff.mpr (scanLinks_mem hmem).1
  refine ⟨t, u, hmem, ht, ?_, rfl⟩
  show JsValue.str (if t = "" then u else t) = JsValue.str t
  rw [if_neg ht]

/-- C4 witness: the amended theorem applied to the matched link
`[T](http://x)`. -/
theorem claim_C4_witness :
    (⟨JsValue.str "http://x", JsValue.str "T", JsValue.undefined⟩ : UrlCitation)
      ∈ parseMarkdownSources "[T](http://x)" ∧
    ∃ t u : String, (t, u) ∈ scanLinks ("[T](http://x)" : String).data ∧ t ≠ "" ∧
      (⟨JsValue.str "http://x", JsValue.str "T", JsValue.undefined⟩ : UrlCitation).title
        = JsValue.str t ∧
      (⟨JsValue.str "http://x", JsValue.str "T", JsValue.undefined⟩ : UrlCitation).url
        = JsValue.str u :=
  ⟨by decide,
   claim_C4_empty_label_never_matches.2 "[T](http://x)" _ (by decide)⟩

/-- C5 counterexample: the claim says the no-block branch returns the input
trimmed (the code returns it unchanged: `"  hi  "` keeps its spaces), and
that when a block is found `content ++ "\n\n" ++ sources` rebuilds the
trimmed input (with a trailing newline the off-by-trimmed-length
`substring` leaves a stray `*` in `content`, so the concatenation does
not). -/
theorem claim_C5_counterexample :
    splitContentAndSources "  hi  " = ("  hi  ", "") ∧
    ("  hi  " : String) ≠ "hi" ∧
    splitContentAndSources "Hi\n\n**Sources**\n[b](http://b)\n" =
      ("Hi\n\n*", "**Sources**\n[b](http://b)") ∧
    ("Hi\n\n*" ++ "\n\n" ++ "**Sources**\n[b](http://b)" : String) ≠
      jsTrim "Hi\n\n**Sources**\n[b](http://b)\n" :=
  ⟨by decide, by decide, by decide, by decide⟩

/-- C5 (amended): when no sources block is found, `sources` is empty and
`content` is the input unchanged (not trimmed); when a block is found and
neither the input nor the text before the marker ends in whitespace,
`content ++ "\n\n" ++ sources` equals the input trimmed. -/
theorem claim_C5_round_trip (s : String) :
    (findSplit s.data = none → splitContentAndSources s = (s, "")) ∧
    (∀ p m : List Char, findSplit s.data = some (p, m) →
      endsNonWS p = true → endsNonWS s.data = true →
      (splitContentAndSources s).1 ++ "\n\n" ++ (splitContentAndSources s).2 = jsTrim s) := by
  refine ⟨findSplit_none, ?_⟩
  intro p m h hp hw
  obtain ⟨-, hpre⟩ := findSplit_sound h
  obtain ⟨rest, hrest⟩ := List.isPrefixOf_iff_prefix.mp hpre
  have h2 : findSplit s.data = some (p, markerL ++ rest) := by rw [hrest]; exact h
  exact split_concat_formula h2 hp hw

/-- C5 witness: the round-trip theorem at a concrete input with no trailing
whitespace on either side of the marker. -/
theorem claim_C5_witness :
    findSplit ("Salut\n\n**Sources**\n[c](http://c)" : String).data =
      some ("Salut".data, "\n\n**Sources**\n[c](http://c)".data) ∧
    endsNonWS ("Salut" : String).data = true ∧
    endsNonWS ("Salut\n\n**Sources**\n[c](http://c)" : String).data = true ∧
    (splitContentAndSources "Salut\n\n**Sources**\n[c](http://c)").1 ++ "\n\n" ++
      (splitContentAndSources "Salut\n\n**Sources**\n[c](http://c)").2 =
      jsTrim "Salut\n\n**Sources**\n[c](http://c)" :=
  ⟨by decide, by decide, by decide,
   (claim_C5_round_trip "Salut\n\n**Sources**\n[c](http://c)").2 "Salut".data
     "\n\n**Sources**\n[c](http://c)".data (by decide) (by decide) (by decide)⟩

/-- C6: `parseMarkdownSources` emits a citation for a matched link exactly
when the destination begins with the literal prefix `http`: every emitted
citation's url starts with `http`, every match whose destination starts
with `http` is emitted, and the example `[F](file:///x) [H](https://h.com)`
yields exactly the one `https://h.com` citation — `file://` (and any other
non-`http` scheme) is silently skipped. -/
theorem claim_C6_http_filter :
    (∀ (s : String) (c : UrlCitation), c ∈ parseMarkdownSources s →
      ∃ u : String, c.url = JsValue.str u ∧ jsStartsWith u "http" = true) ∧
    (∀ (s t u : String), (t, u) ∈ scanLinks s.data → jsStartsWith u "http" = true →
      (⟨JsValue.str u, JsValue.str (if t = "" then u else t), JsValue.undefined⟩ : UrlCitation)
        ∈ parseMarkdownSources s) ∧
    parseMarkdownSources "[F](file:///x) [H](https://h.com)" =
      [⟨JsValue.str "https://h.com", JsValue.str "H", JsValue.undefined⟩] := by
  refine ⟨?_, ?_, by decide⟩
  · intro s c hc
    obtain ⟨t, u, hmem, hu, hhttp, rfl⟩ := parseMarkdownSources_mem.mp hc
    exact ⟨u, rfl, hhttp⟩
  · intro s t u hmem hhttp
    have hu : u ≠ "" := str_ne_empty_iff.mpr (scanLinks_mem hmem).2
    exact parseMarkdownSources_mem.mpr ⟨t, u, hmem, hu, hhttp, rfl⟩

/-- C6 witness: the emit direction applied to the match `[A](http://a.com)`. -/
theorem claim_C6_witness :
    (("A", "http://a.com") ∈ scanLinks ("[A](http://a.com)" : String).data) ∧
    jsStartsWith "http://a.com" "http" = true ∧
    (⟨JsValue.str "http://a.com",
      JsValue.str (if ("A" : String) = "" then "http://a.com" else "A"),
      JsValue.undefined⟩ : UrlCitation) ∈ parseMarkdownSources "[A](http://a.com)" :=
  ⟨by decide, by decide,
   claim_C6_http_filter.2.1 "[A](http://a.com)" "A" "http://a.com" (by decide) (by decide)⟩

/-- C7: `extractUrlCitations` equals the seen-set dedup of the flattened
candidate stream that lists, element by element in input order, the
format-1 (url_citations array) candidates, then the format-2
(url_citation object) candidate, then the format-3 (direct url)
candidate — all three formats checked on every element — and the output is
an order-preserving subsequence of that stream. -/
theorem claim_C7_rule_order (l : List JsValue) :
    extractUrlCitations (JsValue.arr l) = (dedupAppend [] (annStream l)).1 ∧
    (extractUrlCitations (JsValue.arr l)).Sublist (annStream l) ∧
    annStream l = l.flatMap (fun a =>
      if truthy a && typeofIsObject a then rule1Cand a ++ rule2Cand a ++ rule3Cand a
      else []) := by
  refine ⟨extractUrlCitations_arr l, ?_, rfl⟩
  rw [extractUrlCitations_arr]
  exact dedupAppend_sublist _ _

/-- C8: a `splitContentAndSources` call returns (rather than throwing)
exactly when its argument is a string — Lean's embedding of it is total on
strings — and the caller guard in `extractAllUrlCitations` makes a message
whose `content` is absent or not a string contribute no markdown
citations: the result is the annotation part alone, exactly what a
`{ content: "", sources: "" }` split would produce. -/
theorem claim_C8_split_guarded :
    (∀ v : JsValue, (splitContentAndSourcesJs v).isSome = isStr v) ∧
    (∀ (msg : JsValue) (out : List UrlCitation),
      extractAllUrlCitations msg = some out →
      (truthy (getF msg "content") && isStr (getF msg "content")) = false →
      out = (dedupAppend [] (annCand msg)).1) := by
  constructor
  · intro v
    cases v <;> rfl
  · intro msg out h hng
    have h1 : msg ≠ .null := by
      rintro rfl
      rw [extractAllUrlCitations, if_pos (Or.inl rfl)] at h
      cases h
    have h2 : msg ≠ .undefined := by
      rintro rfl
      rw [extractAllUrlCitations, if_pos (Or.inr rfl)] at h
      cases h
    rw [extractAll_eq h1 h2] at h
    injection h with h
    have hmd : mdCand msg = [] := by
      rw [mdCand, if_neg (by simp [hng])]
    rw [hmd, List.append_nil] at h
    exact h.symm

/-- C8 witness: a message whose `content` is the number 7 yields only the
(empty) annotation part. -/
theorem claim_C8_witness :
    extractAllUrlCitations (JsValue.obj [("content", JsValue.num 7)]) = some [] ∧
    (truthy (getF (JsValue.obj [("content", JsValue.num 7)]) "content") &&
      isStr (getF (JsValue.obj [("content", JsValue.num 7)]) "content")) = false ∧
    ([] : List UrlCitation) =
      (dedupAppend [] (annCand (JsValue.obj [("content", JsValue.num 7)]))).1 :=
  ⟨by decide, by decide,
   claim_C8_split_guarded.2 (JsValue.obj [("content", JsValue.num 7)]) []
     (by decide) (by decide)⟩

/-- C9: whenever `splitContentAndSources` returns a non-empty `sources`, it
begins with the exact prefix `**Sources**` and is a trim fixpoint — no
leading or trailing whitespace survives, in particular the blank-line
separator matched from the original text is trimmed away. -/
theorem claim_C9_sources_prefix_trimmed (s : String)
    (h : (splitContentAndSources s).2 ≠ "") :
    "**Sources**".data.isPrefixOf ((splitContentAndSources s).2).data = true ∧
    trimChars ((splitContentAndSources s).2).data = ((splitContentAndSources s).2).data := by
  match hf : findSplit s.data with
  | none =>
    rw [findSplit_none hf] at h
    exact absurd rfl h
  | some (p, m) =>
    obtain ⟨-, hpre⟩ := findSplit_sound hf
    obtain ⟨rest, hrest⟩ := List.isPrefixOf_iff_prefix.mp hpre
    have h2 : findSplit s.data = some (p, markerL ++ rest) := by rw [hrest]; exact hf
    rw [split_sources_formula h2]
    constructor
    · exact List.isPrefixOf_iff_prefix.mpr ⟨_, rfl⟩
    · show trimChars ("**Sources**".data ++ dropTrail ('\n' :: rest)) = _
      rcases dropTrail_cases ('\n' :: rest) with hz | hz
      · rw [hz, List.append_nil]
        decide
      · rw [trimChars]
        have hA : ("**Sources**".data ++ dropTrail ('\n' :: rest)).dropWhile isJsWhitespace
            = "**Sources**".data ++ dropTrail ('\n' :: rest) := by
          rw [show ("**Sources**".data : List Char) = '*' :: "*Sources**".data from by decide]
          rw [List.cons_append, List.dropWhile_cons]
          rw [show isJsWhitespace '*' = false from by decide]
          simp
        rw [hA, dropTrail_append_of_endsNonWS _ hz, dropTrail_of_endsNonWS hz]

/-- C9 witness: the prefix/trim-fixpoint theorem at a concrete input whose
sources block is found. -/
theorem claim_C9_witness :
    ((splitContentAndSources "A\n\n**Sources**\nx").2 ≠ "") ∧
    "**Sources**".data.isPrefixOf
      ((splitContentAndSources "A\n\n**Sources**\nx").2).data = true ∧
    trimChars ((splitContentAndSources "A\n\n**Sources**\nx").2).data =
      ((splitContentAndSources "A\n\n**Sources**\nx").2).data :=
  ⟨by decide,
   (claim_C9_sources_prefix_trimmed "A\n\n**Sources**\nx" (by decide)).1,
   (claim_C9_sources_prefix_trimmed "A\n\n**Sources**\nx" (by decide)).2⟩

/-- C10: every citation `parseMarkdownSources` emits carries no snippet
(the field is `undefined`: snippets only ever come from annotation-derived
citations) and a non-empty title. -/
theorem claim_C10_markdown_no_snippet :
    ∀ (s : String) (c : UrlCitation), c ∈ parseMarkdownSources s →
      c.snippet = JsValue.undefined ∧ ∃ t : String, c.title = JsValue.str t ∧ t ≠ "" := by
  intro s c hc
  obtain ⟨t, u, hmem, hu, hhttp, rfl⟩ := parseMarkdownSources_mem.mp hc
  have ht : t ≠ "" := str_ne_empty_iff.mpr (scanLinks_mem hmem).1
  refine ⟨rfl, t, ?_, ht⟩
  show JsValue.str (if t = "" then u else t) = JsValue.str t
  rw [if_neg ht]

/-- C10 witness: the no-snippet/non-empty-title theorem at the citation
parsed from `[S](http://y)`. -/
theorem claim_C10_witness :
    (⟨JsValue.str "http://y", JsValue.str "S", JsValue.undefined⟩ : UrlCitation)
      ∈ parseMarkdownSources "[S](http://y)" ∧
    ((⟨JsValue.str "http://y", JsValue.str "S", JsValue.undefined⟩ : UrlCitation).snippet
        = JsValue.undefined ∧
      ∃ t : String,
        (⟨JsValue.str "http://y", JsValue.str "S", JsValue.undefined⟩ : UrlCitation).title
          = JsValue.str t ∧ t ≠ "") :=
  ⟨by decide, claim_C10_markdown_no_snippet "[S](http://y)" _ (by decide)⟩
